import Mathlib

/-!
Verification of the cache-backed timeseries synchronization engine
(`tools/cache_base.py`, `tools/eia_adapter.py`, `utils/frequency.py`).

Shallow embedding conventions:
- Calendar dates are `Nat` (days since an arbitrary epoch); the source
  normalizes all timestamps to midnight before any set operation, so a
  day-granular integer is a faithful model of a normalized `pd.Timestamp`.
- A pandas DataFrame holding a series is a `List Row`; `Row.series`
  models the optional `series` column (meaningful only when the table
  has such a column, tracked by an explicit `hasSeries : Bool` where the
  source inspects `df.columns`).
- Fallible fetch collaborators are `Nat → Nat → Except String (List Row)`.
- The on-disk cache file is a `FileContent` value: absent, unreadable
  (corrupt), or a readable table; `_load_cache` returning `None` for the
  first two mirrors the `try/except` around `pd.read_csv`.
-/

/-- One observation row: normalized date, numeric value payload, and the
optional multi-series identifier column. Models one row of the cached
DataFrame in `tools/cache_base.py`. -/
structure Row where
  date : Nat
  val : Int
  series : String
deriving DecidableEq, Repr

/-- Inclusive day range `[a, b]`; models `pd.date_range(start, end, freq="D")`
(empty when `b < a`). -/
def natRange (a b : Nat) : List Nat :=
  List.range' a (b + 1 - a)

/-- The days covered by one fetch segment `(start, end)`, inclusive. -/
def segRange (s : Nat × Nat) : List Nat :=
  natRange s.1 s.2

theorem mem_natRange {a b d : Nat} : d ∈ natRange a b ↔ a ≤ d ∧ d ≤ b := by
  unfold natRange
  rw [List.mem_range']
  constructor
  · rintro ⟨i, hi, rfl⟩
    omega
  · rintro ⟨h1, h2⟩
    exact ⟨d - a, by omega, by omega⟩

theorem natRange_self (a : Nat) : natRange a a = [a] := by
  unfold natRange
  simp

theorem natRange_nil {a b : Nat} (h : b < a) : natRange a b = [] := by
  unfold natRange
  have : b + 1 - a = 0 := by omega
  simp [this]

theorem natRange_succ_right {a b : Nat} (h : a ≤ b + 1) :
    natRange a (b + 1) = natRange a b ++ [b + 1] := by
  unfold natRange
  have h1 : b + 1 + 1 - a = (b + 1 - a) + 1 := by omega
  rw [h1, List.range'_1_concat]
  have h2 : a + (b + 1 - a) = b + 1 := by omega
  rw [h2]

theorem chain'_lt_natRange (a b : Nat) : List.Chain' (· < ·) (natRange a b) := by
  unfold natRange
  generalize b + 1 - a = n
  induction n generalizing a with
  | zero => simp
  | succ k ih =>
    rw [List.range'_succ]
    cases k with
    | zero => simp
    | succ m =>
      rw [List.range'_succ]
      exact List.Chain'.cons (by omega) (by simpa [List.range'_succ] using ih (a + 1))

/-- Insertion step of the date sort used to model `sort_values`. -/
def insertKey {α : Type} (key : α → Nat) (r : α) : List α → List α
  | [] => [r]
  | s :: rest => if key r ≤ key s then r :: s :: rest else s :: insertKey key r rest

/-- Insertion sort by a `Nat` key; models `DataFrame.sort_values` /
`Series.sort_values` (the claims under verification never depend on the
relative order of equal keys). -/
def sortKey {α : Type} (key : α → Nat) : List α → List α
  | [] => []
  | r :: rest => insertKey key r (sortKey key rest)

theorem mem_insertKey {α : Type} (key : α → Nat) (r x : α) (l : List α) :
    x ∈ insertKey key r l ↔ x = r ∨ x ∈ l := by
  induction l with
  | nil => simp [insertKey]
  | cons s rest ih =>
    by_cases h : key r ≤ key s
    · simp [insertKey, h]
    · simp only [insertKey, if_neg h, List.mem_cons, ih]
      tauto

theorem mem_sortKey {α : Type} (key : α → Nat) (x : α) (l : List α) :
    x ∈ sortKey key l ↔ x ∈ l := by
  induction l with
  | nil => simp [sortKey]
  | cons r rest ih => simp [sortKey, mem_insertKey, ih]

theorem countP_insertKey {α : Type} (key : α → Nat) (p : α → Bool) (r : α) (l : List α) :
    (insertKey key r l).countP p = l.countP p + (if p r then 1 else 0) := by
  induction l with
  | nil => simp [insertKey, List.countP_cons]
  | cons s rest ih =>
    by_cases h : key r ≤ key s
    · simp only [insertKey, if_pos h, List.countP_cons]
    · simp only [insertKey, if_neg h, List.countP_cons, ih]
      omega

theorem countP_sortKey {α : Type} (key : α → Nat) (p : α → Bool) (l : List α) :
    (sortKey key l).countP p = l.countP p := by
  induction l with
  | nil => rfl
  | cons r rest ih =>
    simp [sortKey, countP_insertKey, ih, List.countP_cons]

theorem pairwise_insertKey {α : Type} (key : α → Nat) (r : α) (l : List α)
    (h : l.Pairwise (fun a b => key a ≤ key b)) :
    (insertKey key r l).Pairwise (fun a b => key a ≤ key b) := by
  induction l with
  | nil => simp [insertKey]
  | cons s rest ih =>
    rcases List.pairwise_cons.mp h with ⟨hs, hrest⟩
    by_cases hk : key r ≤ key s
    · rw [insertKey, if_pos hk]
      refine List.pairwise_cons.mpr ⟨?_, h⟩
      intro y hy
      rcases List.mem_cons.mp hy with rfl | hy'
      · exact hk
      · exact le_trans hk (hs y hy')
    · rw [insertKey, if_neg hk]
      refine List.pairwise_cons.mpr ⟨?_, ih hrest⟩
      intro y hy
      rcases (mem_insertKey key r y rest).mp hy with rfl | hy'
      · omega
      · exact hs y hy'

theorem pairwise_sortKey {α : Type} (key : α → Nat) (l : List α) :
    (sortKey key l).Pairwise (fun a b => key a ≤ key b) := by
  induction l with
  | nil => simp [sortKey]
  | cons r rest ih => exact pairwise_insertKey key r _ ih

theorem sortKey_eq_self {α : Type} (key : α → Nat) (l : List α)
    (h : List.Chain' (fun a b => key a ≤ key b) l) : sortKey key l = l := by
  induction l with
  | nil => rfl
  | cons r rest ih =>
    have htail : List.Chain' (fun a b => key a ≤ key b) rest := h.tail
    rw [sortKey, ih htail]
    cases rest with
    | nil => rfl
    | cons s rest' =>
      have : key r ≤ key s := List.chain'_cons.mp h |>.1
      simp [insertKey, this]

theorem sortKey_ne_nil {α : Type} (key : α → Nat) {l : List α} (h : l ≠ []) :
    sortKey key l ≠ [] := by
  cases l with
  | nil => exact absurd rfl h
  | cons r rest =>
    rw [sortKey]
    cases hs : sortKey key rest with
    | nil => simp [insertKey]
    | cons s rest' =>
      by_cases hk : key r ≤ key s <;> simp [insertKey, hk]

/-- Dedupe key of the merged cache table: `(date, series)` when the table
has a `series` column, else `(date,)` — models `EIAAdapter._dedupe_cols`
filtered by `_merge_cache` to the columns actually present. -/
def dedupeKey (hasSeries : Bool) (r : Row) : Nat × Option String :=
  (r.date, if hasSeries then some r.series else none)

/-- Keep-last deduplication: a row survives iff no later row has the same
key; surviving rows keep their relative order. Models
`DataFrame.drop_duplicates(subset=dedupe_cols, keep="last")`. -/
def dedupKeepLast {κ : Type} [DecidableEq κ] (key : Row → κ) : List Row → List Row
  | [] => []
  | r :: rs =>
    if rs.any (fun s => decide (key s = key r)) then dedupKeepLast key rs
    else r :: dedupKeepLast key rs

theorem countP_dedupKeepLast {κ : Type} [DecidableEq κ] (key : Row → κ) (k : κ)
    (l : List Row) :
    (dedupKeepLast key l).countP (fun r => decide (key r = k)) =
      if l.any (fun r => decide (key r = k)) then 1 else 0 := by
  induction l with
  | nil => simp [dedupKeepLast]
  | cons r rs ih =>
    by_cases hdup : rs.any (fun s => decide (key s = key r))
    · rw [dedupKeepLast, if_pos hdup]
      by_cases hk : key r = k
      · have : rs.any (fun x => decide (key x = k)) = true := by
          rcases List.any_eq_true.mp hdup with ⟨s, hs, hsk⟩
          exact List.any_eq_true.mpr ⟨s, hs, by simp_all⟩
        simp [ih, this, List.any_cons]
      · simp [ih, List.any_cons, hk]
    · rw [dedupKeepLast, if_neg hdup]
      by_cases hk : key r = k
      · have : rs.any (fun x => decide (key x = k)) = false := by
          rw [List.any_eq_false]
          intro s hs
          intro hcon
          exact hdup (List.any_eq_true.mpr ⟨s, hs, by simp_all⟩)
        simp [List.countP_cons, ih, this, hk, List.any_cons]
      · simp [List.countP_cons, ih, hk, List.any_cons]

theorem mem_dedupKeepLast {κ : Type} [DecidableEq κ] (key : Row → κ) (r : Row)
    (l : List Row) (h : r ∈ dedupKeepLast key l) : r ∈ l := by
  induction l with
  | nil => simp [dedupKeepLast] at h
  | cons s rs ih =>
    by_cases hdup : rs.any (fun x => decide (key x = key s))
    · rw [dedupKeepLast, if_pos hdup] at h
      exact List.mem_cons_of_mem s (ih h)
    · rw [dedupKeepLast, if_neg hdup] at h
      rcases List.mem_cons.mp h with rfl | h'
      · exact List.mem_cons_self r rs
      · exact List.mem_cons_of_mem s (ih h')

theorem mem_dedupKeepLast_append_right {κ : Type} [DecidableEq κ] (key : Row → κ)
    (old new : List Row) (r : Row)
    (h : r ∈ dedupKeepLast key (old ++ new))
    (hnew : new.any (fun s => decide (key s = key r)) = true) : r ∈ new := by
  induction old with
  | nil => exact mem_dedupKeepLast key r new h
  | cons a old' ih =>
    rw [List.cons_append] at h
    by_cases hdup : (old' ++ new).any (fun x => decide (key x = key a))
    · rw [dedupKeepLast, if_pos hdup] at h
      exact ih h
    · rw [dedupKeepLast, if_neg hdup] at h
      rcases List.mem_cons.mp h with rfl | h'
      · exfalso
        rcases List.any_eq_true.mp hnew with ⟨s, hs, hsk⟩
        exact hdup (List.any_eq_true.mpr
          ⟨s, List.mem_append_right old' hs, by simp_all⟩)
      · exact ih h'

/-- Merge a (possibly absent/empty) old cache table with a newly fetched
batch: concatenate, drop duplicate keys keeping the last occurrence, sort
ascending by date. Models `CacheBackedTimeseriesAdapterBase._merge_cache`. -/
def mergeCache (dfOld : Option (List Row)) (dfNew : List Row) (hasSeries : Bool) :
    List Row :=
  let merged :=
    match dfOld with
    | none => dfNew
    | some t => if t.isEmpty then dfNew else t ++ dfNew
  sortKey (·.date) (dedupKeepLast (dedupeKey hasSeries) merged)

theorem mergeCache_some_eq (old new : List Row) (hasSeries : Bool) :
    mergeCache (some old) new hasSeries =
      sortKey (·.date) (dedupKeepLast (dedupeKey hasSeries) (old ++ new)) := by
  cases old with
  | nil => simp [mergeCache]
  | cons a l => simp [mergeCache]

/-- C2: merging an old cache table with a newly fetched batch yields a
table where each dedupe key `(date, series)` (or `(date,)` without a
series column) occurs exactly once — once iff some input row carried it —
the retained row for any key present in the new batch comes from the new
batch, and the rows are sorted ascending by date. -/
theorem c2_merge_dedupe_sort (old new : List Row) (hasSeries : Bool) :
    (∀ k : Nat × Option String,
      (mergeCache (some old) new hasSeries).countP
          (fun r => decide (dedupeKey hasSeries r = k)) =
        if (old ++ new).any (fun r => decide (dedupeKey hasSeries r = k)) then 1
        else 0)
    ∧ (∀ r ∈ mergeCache (some old) new hasSeries,
        new.any (fun s => decide (dedupeKey hasSeries s = dedupeKey hasSeries r)) =
            true →
          r ∈ new)
    ∧ (mergeCache (some old) new hasSeries).Pairwise
        (fun a b => a.date ≤ b.date) := by
  rw [mergeCache_some_eq]
  refine ⟨?_, ?_, ?_⟩
  · intro k
    rw [countP_sortKey]
    exact countP_dedupKeepLast (dedupeKey hasSeries) k (old ++ new)
  · intro r hr hnew
    rw [mem_sortKey] at hr
    exact mem_dedupKeepLast_append_right (dedupeKey hasSeries) old new r hr hnew
  · exact pairwise_sortKey (fun r : Row => r.date) _

/-- Witness for C2 at a concrete conflicting input: old row `(1, 10)` and
new row `(1, 20)` share the date key; the merged table holds that key
exactly once and the surviving row is the new one. -/
theorem c2_merge_witness :
    (mergeCache (some [⟨1, 10, ""⟩]) [⟨1, 20, ""⟩] false).countP
        (fun r => decide (dedupeKey false r = ((1 : Nat), (none : Option String)))) = 1
    ∧ (⟨1, 20, ""⟩ : Row) ∈ mergeCache (some [⟨1, 10, ""⟩]) [⟨1, 20, ""⟩] false := by
  have h := c2_merge_dedupe_sort [⟨1, 10, ""⟩] [⟨1, 20, ""⟩] false
  constructor
  · rw [h.1 ((1 : Nat), (none : Option String))]
    decide
  · have hm : (⟨1, 20, ""⟩ : Row) ∈ mergeCache (some [⟨1, 10, ""⟩]) [⟨1, 20, ""⟩] false := by
      decide
    exact hm

/-- Remove adjacent duplicates from a list; on a sorted list this models
`Series.unique()` / `DatetimeIndex(...).unique()`. -/
def dedupAdj : List Nat → List Nat
  | [] => []
  | [a] => [a]
  | a :: b :: rest => if a = b then dedupAdj (b :: rest) else a :: dedupAdj (b :: rest)

theorem mem_dedupAdj (x : Nat) (l : List Nat) : x ∈ dedupAdj l ↔ x ∈ l := by
  induction l with
  | nil => simp [dedupAdj]
  | cons a rest ih =>
    cases rest with
    | nil => simp [dedupAdj]
    | cons b rest' =>
      by_cases hab : a = b
      · subst hab
        rw [dedupAdj, if_pos rfl]
        rw [ih]
        simp
      · rw [dedupAdj, if_neg hab]
        simp only [List.mem_cons] at ih ⊢
        rw [ih]

theorem dedupAdj_cons_head (l : List Nat) (a : Nat) :
    ∃ t, dedupAdj (a :: l) = a :: t := by
  induction l generalizing a with
  | nil => exact ⟨[], rfl⟩
  | cons b rest ih =>
    by_cases hab : a = b
    · subst hab
      rw [dedupAdj, if_pos rfl]
      exact ih a
    · exact ⟨dedupAdj (b :: rest), by rw [dedupAdj, if_neg hab]⟩

theorem chain'_lt_dedupAdj (l : List Nat)
    (h : List.Chain' (· ≤ ·) l) : List.Chain' (· < ·) (dedupAdj l) := by
  induction l with
  | nil => simp [dedupAdj]
  | cons a rest ih =>
    cases rest with
    | nil => simp [dedupAdj]
    | cons b rest' =>
      have hab : a ≤ b := List.chain'_cons.mp h |>.1
      have htail := List.chain'_cons.mp h |>.2
      by_cases heq : a = b
      · subst heq
        rw [dedupAdj, if_pos rfl]
        exact ih htail
      · rw [dedupAdj, if_neg heq]
        rcases dedupAdj_cons_head rest' b with ⟨t, ht⟩
        rw [ht]
        exact List.Chain'.cons (by omega) (ht ▸ ih htail)

/-- Sorted, de-duplicated list of normalized observation dates of a table;
models `pd.to_datetime(df[date_col]).dropna().dt.normalize()` followed by
sorting and uniquification (all dates in the model are already valid and
day-granular, so coercion and `dropna` are identities). -/
def observedDates (df : List Row) : List Nat :=
  dedupAdj (sortKey id (df.map (·.date)))

theorem mem_observedDates (df : List Row) (d : Nat) :
    d ∈ observedDates df ↔ d ∈ df.map (·.date) := by
  unfold observedDates
  rw [mem_dedupAdj, mem_sortKey]

theorem chain'_lt_observedDates (df : List Row) :
    List.Chain' (· < ·) (observedDates df) :=
  chain'_lt_dedupAdj _ ((pairwise_sortKey id _).chain')

/-- The expected daily calendar over `[start, fin]` minus the observed
dates, in ascending order; models
`pd.date_range(start, end, freq="D").difference(observed)`. -/
def expectedMissing (df : List Row) (start fin : Nat) : List Nat :=
  (natRange start fin).filter (fun d => !((observedDates df).contains d))

/-- The loop body of `_compress_dates_to_segments`: `segStart`/`prev` are
the accumulator variables of the source's for-loop. -/
def compressAux (segStart prev : Nat) : List Nat → List (Nat × Nat)
  | [] => [(segStart, prev)]
  | dt :: rest =>
    if dt = prev + 1 then compressAux segStart dt rest
    else (segStart, prev) :: compressAux dt dt rest

/-- Compress a set of missing dates into maximal consecutive runs; models
`_compress_dates_to_segments` (sort, then fold closing a segment whenever
the day-delta exceeds one). -/
def compressDatesToSegments (missing : List Nat) : List (Nat × Nat) :=
  match sortKey id missing with
  | [] => []
  | d :: rest => compressAux d d rest

/-- Daily-cadence gap detection: expected daily calendar minus observed
dates, compressed to segments; models `_missing_segments_daily`. -/
def missingSegmentsDaily (df : List Row) (start fin : Nat) : List (Nat × Nat) :=
  compressDatesToSegments (expectedMissing df start fin)

theorem flatMap_compressAux (l : List Nat) :
    ∀ s p, s ≤ p → (compressAux s p l).flatMap segRange = natRange s p ++ l := by
  induction l with
  | nil =>
    intro s p _
    simp [compressAux, segRange]
  | cons dt rest ih =>
    intro s p hsp
    by_cases hdt : dt = p + 1
    · subst hdt
      rw [compressAux, if_pos rfl, ih s (p + 1) (by omega),
        natRange_succ_right (by omega), List.append_assoc]
      rfl
    · rw [compressAux, if_neg hdt]
      rw [List.flatMap_cons, ih dt dt le_rfl]
      simp [segRange, natRange_self]

theorem compressAux_head_fst (l : List Nat) :
    ∀ s p, ∃ q t, compressAux s p l = (s, q) :: t := by
  induction l with
  | nil => exact fun s p => ⟨p, [], rfl⟩
  | cons dt rest ih =>
    intro s p
    by_cases hdt : dt = p + 1
    · subst hdt
      rw [compressAux, if_pos rfl]
      exact ih s (p + 1)
    · rw [compressAux, if_neg hdt]
      exact ⟨p, compressAux dt dt rest, rfl⟩

theorem compressAux_valid_chain (l : List Nat) :
    ∀ s p, s ≤ p → List.Chain' (· < ·) (p :: l) →
      (∀ x ∈ compressAux s p l, x.1 ≤ x.2)
      ∧ List.Chain' (fun x y : Nat × Nat => x.2 + 1 < y.1) (compressAux s p l) := by
  induction l with
  | nil =>
    intro s p hsp _
    refine ⟨?_, by simp [compressAux]⟩
    intro x hx
    simp only [compressAux, List.mem_singleton] at hx
    subst hx
    exact hsp
  | cons dt rest ih =>
    intro s p hsp hch
    have hpd : p < dt := List.chain'_cons.mp hch |>.1
    have htail : List.Chain' (· < ·) (dt :: rest) := List.chain'_cons.mp hch |>.2
    by_cases hdt : dt = p + 1
    · subst hdt
      rw [compressAux, if_pos rfl]
      exact ih s (p + 1) (by omega) htail
    · rw [compressAux, if_neg hdt]
      rcases ih dt dt le_rfl htail with ⟨hvalid, hchain⟩
      refine ⟨?_, ?_⟩
      · intro x hx
        rcases List.mem_cons.mp hx with rfl | hx'
        · exact hsp
        · exact hvalid x hx'
      · rcases compressAux_head_fst rest dt dt with ⟨q, t, hqt⟩
        rw [hqt]
        exact List.Chain'.cons (by omega) (hqt ▸ hchain)

theorem chain'_le_of_lt {l : List Nat} (h : List.Chain' (· < ·) l) :
    List.Chain' (fun a b : Nat => id a ≤ id b) l :=
  List.Chain'.imp (fun _ _ hx => le_of_lt hx) h

theorem compress_flatMap (m : List Nat) (hm : List.Chain' (· < ·) m) :
    (compressDatesToSegments m).flatMap segRange = m := by
  unfold compressDatesToSegments
  rw [sortKey_eq_self id m (chain'_le_of_lt hm)]
  cases m with
  | nil => rfl
  | cons d rest =>
    rw [flatMap_compressAux rest d d le_rfl, natRange_self]
    rfl

theorem compress_valid_chain (m : List Nat) (hm : List.Chain' (· < ·) m) :
    (∀ x ∈ compressDatesToSegments m, x.1 ≤ x.2)
    ∧ List.Chain' (fun x y : Nat × Nat => x.2 + 1 < y.1)
        (compressDatesToSegments m) := by
  unfold compressDatesToSegments
  rw [sortKey_eq_self id m (chain'_le_of_lt hm)]
  cases m with
  | nil => exact ⟨by simp, by simp⟩
  | cons d rest => exact compressAux_valid_chain rest d d le_rfl hm

theorem chain'_lt_expectedMissing (df : List Row) (start fin : Nat) :
    List.Chain' (· < ·) (expectedMissing df start fin) := by
  have hp : List.Pairwise (· < ·) (natRange start fin) :=
    List.chain'_iff_pairwise.mp (chain'_lt_natRange start fin)
  have hf : List.Pairwise (· < ·) (expectedMissing df start fin) :=
    hp.sublist (List.filter_sublist _) |>.imp (fun h => h)
  exact hf.chain'

theorem segs_fst_lb (t : List (Nat × Nat)) (z : Nat × Nat)
    (hval : ∀ x ∈ z :: t, x.1 ≤ x.2)
    (hch : List.Chain' (fun x y : Nat × Nat => x.2 + 1 < y.1) (z :: t)) :
    ∀ x ∈ z :: t, z.1 ≤ x.1 := by
  induction t generalizing z with
  | nil =>
    intro x hx
    rcases List.mem_singleton.mp hx with rfl
    exact le_rfl
  | cons w t' ih =>
    intro x hx
    rcases List.mem_cons.mp hx with rfl | hx'
    · exact le_rfl
    · have hz : z.1 ≤ z.2 := hval z (List.mem_cons_self z _)
      have hzw : z.2 + 1 < w.1 := List.chain'_cons.mp hch |>.1
      have hw : w.1 ≤ x.1 :=
        ih w (fun y hy => hval y (List.mem_cons_of_mem z hy))
          (List.chain'_cons.mp hch |>.2) x hx'
      omega

theorem flat_fst_lb (t : List (Nat × Nat)) (z : Nat × Nat)
    (hval : ∀ x ∈ z :: t, x.1 ≤ x.2)
    (hch : List.Chain' (fun x y : Nat × Nat => x.2 + 1 < y.1) (z :: t)) :
    ∀ d ∈ (z :: t).flatMap segRange, z.1 ≤ d := by
  intro d hd
  rcases List.mem_flatMap.mp hd with ⟨x, hx, hdx⟩
  have h1 : z.1 ≤ x.1 := segs_fst_lb t z hval hch x hx
  have h2 : x.1 ≤ d := (mem_natRange.mp hdx).1
  omega

theorem succ_end_not_mem_flat (segs : List (Nat × Nat))
    (hval : ∀ x ∈ segs, x.1 ≤ x.2)
    (hch : List.Chain' (fun x y : Nat × Nat => x.2 + 1 < y.1) segs) :
    ∀ a b, (a, b) ∈ segs → b + 1 ∉ segs.flatMap segRange := by
  induction segs with
  | nil => intro a b h; simp at h
  | cons z t ih =>
    intro a b hab hmem
    have hvt : ∀ x ∈ t, x.1 ≤ x.2 := fun x hx => hval x (List.mem_cons_of_mem z hx)
    have hct := hch.tail
    rw [List.flatMap_cons] at hmem
    rcases List.mem_append.mp hmem with hz | ht
    · -- b + 1 lies in the first segment's range
      rcases List.mem_cons.mp hab with rfl | hab'
      · have := (mem_natRange.mp hz).2
        omega
      · cases t with
        | nil => simp at hab'
        | cons w t' =>
          have h1 : w.1 ≤ a := segs_fst_lb t' w hvt hct (a, b) hab'
          have h2 : z.2 + 1 < w.1 := List.chain'_cons.mp hch |>.1
          have h3 : a ≤ b := hval (a, b) hab
          have h4 : b + 1 ≤ z.2 := (mem_natRange.mp hz).2
          omega
    · -- b + 1 lies in the flattened tail
      rcases List.mem_cons.mp hab with rfl | hab'
      · cases t with
        | nil => simp at ht
        | cons w t' =>
          have h2 : w.1 ≤ b + 1 := flat_fst_lb t' w hvt hct (b + 1) ht
          have h3 : b + 1 < w.1 := List.chain'_cons.mp hch |>.1
          omega
      · exact ih hvt hct a b hab' ht

theorem pred_start_not_mem_flat (segs : List (Nat × Nat))
    (hval : ∀ x ∈ segs, x.1 ≤ x.2)
    (hch : List.Chain' (fun x y : Nat × Nat => x.2 + 1 < y.1) segs) :
    ∀ a b, (a, b) ∈ segs → 0 < a → a - 1 ∉ segs.flatMap segRange := by
  induction segs with
  | nil => intro a b h; simp at h
  | cons z t ih =>
    intro a b hab ha hmem
    have hvt : ∀ x ∈ t, x.1 ≤ x.2 := fun x hx => hval x (List.mem_cons_of_mem z hx)
    have hct := hch.tail
    rw [List.flatMap_cons] at hmem
    rcases List.mem_append.mp hmem with hz | ht
    · rcases List.mem_cons.mp hab with rfl | hab'
      · have := (mem_natRange.mp hz).1
        omega
      · cases t with
        | nil => simp at hab'
        | cons w t' =>
          have h1 : w.1 ≤ a := segs_fst_lb t' w hvt hct (a, b) hab'
          have h2 : z.2 + 1 < w.1 := List.chain'_cons.mp hch |>.1
          have h3 : a - 1 ≤ z.2 := (mem_natRange.mp hz).2
          omega
    · rcases List.mem_cons.mp hab with rfl | hab'
      · cases t with
        | nil => simp at ht
        | cons w t' =>
          have h2 : w.1 ≤ a - 1 := flat_fst_lb t' w hvt hct (a - 1) ht
          have h3 : b + 1 < w.1 := List.chain'_cons.mp hch |>.1
          have h4 : a ≤ b := hval (a, b) (List.mem_cons_self (a, b) _)
          omega
      · exact ih hvt hct a b hab' ha ht

/-- C3: under daily gap-fill, `_missing_segments_daily` returns exactly the
maximal runs of consecutive missing days of the expected calendar over
`[start, fin]` minus the observed dates: the segments' days concatenate to
precisely the missing dates (so each segment is a contiguous run of missing
days and every missing day is covered), each segment is valid, and each run
is maximal (the day before a segment start and the day after a segment end
are never missing). In particular, missing days `{1,2,3,5,6}` with day 4
observed compress to exactly `[1,3]` and `[5,6]`. -/
theorem c3_daily_gap_compression (df : List Row) (start fin : Nat) :
    ((missingSegmentsDaily df start fin).flatMap segRange
        = expectedMissing df start fin)
    ∧ (∀ s ∈ missingSegmentsDaily df start fin, s.1 ≤ s.2)
    ∧ (∀ s ∈ missingSegmentsDaily df start fin,
        s.2 + 1 ∉ expectedMissing df start fin
        ∧ (0 < s.1 → s.1 - 1 ∉ expectedMissing df start fin))
    ∧ missingSegmentsDaily [⟨4, 0, ""⟩] 1 6 = [(1, 3), (5, 6)] := by
  have hm := chain'_lt_expectedMissing df start fin
  have hflat : (missingSegmentsDaily df start fin).flatMap segRange
      = expectedMissing df start fin := compress_flatMap _ hm
  rcases compress_valid_chain _ hm with ⟨hval, hch⟩
  refine ⟨hflat, hval, ?_, by decide⟩
  intro s hs
  constructor
  · rw [← hflat]
    exact succ_end_not_mem_flat _ hval hch s.1 s.2 hs
  · intro h0
    rw [← hflat]
    exact pred_start_not_mem_flat _ hval hch s.1 s.2 hs h0

/-- Witness for C3 at a concrete input: with day 4 observed in window
`[1, 6]`, the missing days are `{1,2,3,5,6}` and the computed segments are
exactly `[1,3]` and `[5,6]`. -/
theorem c3_witness : missingSegmentsDaily [⟨4, 0, ""⟩] 1 6 = [(1, 3), (5, 6)] :=
  (c3_daily_gap_compression [⟨4, 0, ""⟩] 1 6).2.2.2

/-- Frequency-inference result; models the dict returned by
`_infer_frequency_daily_base` (`freq`, `confidence`, `step_days`,
`n_points`). -/
structure FreqInfo where
  freq : String
  confidence : ℚ
  stepDays : Option Nat
  nPoints : Nat
deriving DecidableEq, Repr

/-- Truthiness test `freq and freq.get("freq") == "daily"` from
`_missing_segments`. -/
def isDailyFreq : Option FreqInfo → Bool
  | some fi => fi.freq == "daily"
  | none => false

/-- `Series.min()` over a non-empty series, as a fold from the head. -/
def listMin (x : Nat) (l : List Nat) : Nat := l.foldl min x

/-- `Series.max()` over a non-empty series, as a fold from the head. -/
def listMax (x : Nat) (l : List Nat) : Nat := l.foldl max x

theorem foldl_min_le (l : List Nat) :
    ∀ (x : Nat), l.foldl min x ≤ x ∧ ∀ y ∈ l, l.foldl min x ≤ y := by
  induction l with
  | nil =>
    intro x
    exact ⟨le_rfl, by simp⟩
  | cons b l' ih =>
    intro x
    have h := ih (min x b)
    refine ⟨le_trans h.1 (min_le_left _ _), ?_⟩
    intro y hy
    rcases List.mem_cons.mp hy with rfl | hy'
    · exact le_trans h.1 (min_le_right _ _)
    · exact h.2 y hy'

theorem le_foldl_max (l : List Nat) :
    ∀ (x : Nat), x ≤ l.foldl max x ∧ ∀ y ∈ l, y ≤ l.foldl max x := by
  induction l with
  | nil =>
    intro x
    exact ⟨le_rfl, by simp⟩
  | cons b l' ih =>
    intro x
    have h := ih (max x b)
    refine ⟨le_trans (le_max_left _ _) h.1, ?_⟩
    intro y hy
    rcases List.mem_cons.mp hy with rfl | hy'
    · exact le_trans (le_max_right _ _) h.1
    · exact h.2 y hy'

theorem listMin_le (x : Nat) (l : List Nat) : ∀ y ∈ x :: l, listMin x l ≤ y := by
  intro y hy
  rcases List.mem_cons.mp hy with rfl | hy'
  · exact (foldl_min_le l _).1
  · exact (foldl_min_le l _).2 y hy'

theorem le_listMax (x : Nat) (l : List Nat) : ∀ y ∈ x :: l, y ≤ listMax x l := by
  intro y hy
  rcases List.mem_cons.mp hy with rfl | hy'
  · exact (le_foldl_max l _).1
  · exact (le_foldl_max l _).2 y hy'

/-- Gap detection; models `_missing_segments`:
absent/empty cache or no in-window rows give the whole window; daily
cadence with internal gap-fill allowed compresses the missing daily
calendar; otherwise only the edges before the earliest and after the
latest in-window cached date are fetched. -/
def missingSegments (df : Option (List Row)) (start fin : Nat)
    (freq : Option FreqInfo) (allowDaily : Bool) : List (Nat × Nat) :=
  match df with
  | none => [(start, fin)]
  | some rows =>
    if rows.isEmpty then [(start, fin)]
    else
      let inWin := rows.filter (fun r => decide (start ≤ r.date) && decide (r.date ≤ fin))
      if inWin.isEmpty then [(start, fin)]
      else if allowDaily && isDailyFreq freq then
        missingSegmentsDaily inWin start fin
      else
        match inWin.map (·.date) with
        | [] => []
        | d :: ds =>
          (if start < listMin d ds then [(start, listMin d ds)] else [])
            ++ (if listMax d ds < fin then [(listMax d ds, fin)] else [])

/-- C6 counterexample: with a single cached in-window date 5, a valid
window `[1, 10]`, non-daily cadence, the detector returns the two segments
`[1,5]` and `[5,10]`, and the calendar date 5 belongs to both of these
distinct segments — the claimed pairwise disjointness fails. -/
theorem c6_counterexample :
    missingSegments (some [⟨5, 0, ""⟩]) 1 10 none true = [(1, 5), (5, 10)]
    ∧ ((1, 5) : Nat × Nat) ≠ (5, 10)
    ∧ 5 ∈ segRange (1, 5)
    ∧ 5 ∈ segRange (5, 10) := by
  decide

/-- C6 amended: for a valid requested window (`start ≤ fin`), every
segment produced by the gap detector satisfies `start ≤ end` and the
segment list is sorted ascending with consecutive segments overlapping in
at most their shared boundary date (`s.end ≤ next.start`; in edge-fill
mode the two segments can share the single cached boundary date, so full
pairwise disjointness does not hold). -/
theorem c6_segments_sorted_valid (df : Option (List Row)) (start fin : Nat)
    (freq : Option FreqInfo) (allowDaily : Bool) (h : start ≤ fin) :
    (∀ s ∈ missingSegments df start fin freq allowDaily, s.1 ≤ s.2)
    ∧ List.Chain' (fun x y : Nat × Nat => x.2 ≤ y.1)
        (missingSegments df start fin freq allowDaily) := by
  have hwhole : (∀ s ∈ [((start : Nat), fin)], s.1 ≤ s.2)
      ∧ List.Chain' (fun x y : Nat × Nat => x.2 ≤ y.1) [(start, fin)] := by
    refine ⟨?_, by simp⟩
    intro s hs
    rcases List.mem_singleton.mp hs with rfl
    exact h
  cases df with
  | none => exact hwhole
  | some rows =>
    rw [missingSegments]
    by_cases hemp : rows.isEmpty
    · rw [if_pos hemp]; exact hwhole
    · rw [if_neg hemp]
      simp only []
      set inWin := rows.filter
        (fun r => decide (start ≤ r.date) && decide (r.date ≤ fin)) with hwin
      by_cases hwe : inWin.isEmpty
      · rw [if_pos hwe]; exact hwhole
      · rw [if_neg hwe]
        by_cases hdaily : allowDaily && isDailyFreq freq
        · rw [if_pos hdaily]
          have hm := chain'_lt_expectedMissing inWin start fin
          rcases compress_valid_chain _ hm with ⟨hval, hch⟩
          exact ⟨hval, hch.imp (fun hxy => by omega)⟩
        · rw [if_neg hdaily]
          cases hmap : inWin.map (·.date) with
          | nil => exact ⟨by simp, by simp⟩
          | cons d ds =>
            have hmin : listMin d ds ≤ d := listMin_le d ds d (List.mem_cons_self _ _)
            have hmax : d ≤ listMax d ds := le_listMax d ds d (List.mem_cons_self _ _)
            by_cases h1 : start < listMin d ds
              <;> by_cases h2 : listMax d ds < fin
              <;> simp only [if_pos, if_neg, h1, h2, if_true, if_false,
                    List.nil_append, List.append_nil]
            · refine ⟨?_, ?_⟩
              · intro s hs
                rcases List.mem_cons.mp hs with rfl | hs'
                · omega
                · rcases List.mem_singleton.mp hs' with rfl
                  omega
              · simp only [List.cons_append, List.nil_append]
                exact List.Chain'.cons (by simp; omega) (by simp)
            · refine ⟨?_, by simp⟩
              intro s hs
              rcases List.mem_singleton.mp (by simpa using hs) with rfl
              omega
            · refine ⟨?_, by simp⟩
              intro s hs
              rcases List.mem_singleton.mp (by simpa using hs) with rfl
              omega
            · exact ⟨by simp, by simp⟩

/-- Witness for the amended C6 at a concrete input: the single-cached-date
edge-fill scenario has a valid window and its two segments satisfy the
amended ordering property. -/
theorem c6_witness :
    (∀ s ∈ missingSegments (some [⟨5, 0, ""⟩]) 1 10 none true, s.1 ≤ s.2)
    ∧ List.Chain' (fun x y : Nat × Nat => x.2 ≤ y.1)
        (missingSegments (some [⟨5, 0, ""⟩]) 1 10 none true) :=
  c6_segments_sorted_valid (some [⟨5, 0, ""⟩]) 1 10 none true (by decide)

/-- Consecutive differences of a list of dates; models `np.diff`. -/
def diffList : List Nat → List Nat
  | a :: b :: rest => (b - a) :: diffList (b :: rest)
  | _ => []

theorem diffList_length (l : List Nat) : (diffList l).length = l.length - 1 := by
  induction l with
  | nil => rfl
  | cons a rest ih =>
    cases rest with
    | nil => rfl
    | cons b rest' =>
      have : diffList (a :: b :: rest') = (b - a) :: diffList (b :: rest') := rfl
      rw [this]
      simp only [List.length_cons] at ih ⊢
      omega

theorem diffList_pos (l : List Nat) (h : List.Chain' (· < ·) l) :
    ∀ x ∈ diffList l, 0 < x := by
  induction l with
  | nil => simp [diffList]
  | cons a rest ih =>
    cases rest with
    | nil => simp [diffList]
    | cons b rest' =>
      intro x hx
      have hstep : diffList (a :: b :: rest') = (b - a) :: diffList (b :: rest') := rfl
      rw [hstep] at hx
      have hab : a < b := List.chain'_cons.mp h |>.1
      rcases List.mem_cons.mp hx with rfl | hx'
      · omega
      · exact ih h.tail x hx'

/-- Count of a value among the deltas; models the `counts` entry of
`np.unique(diffs, return_counts=True)` for that value. -/
def countOf (l : List Nat) (c : Nat) : Nat := l.countP (fun x => x == c)

/-- The `vals[np.argmax(counts)]` selection: fold over the remaining sorted
unique deltas, replacing the current best only on a strictly larger count
(so ties keep the earlier, i.e. smaller, delta — `np.argmax` returns the
first maximum). -/
def pickMode (cnt : Nat → Nat) (c : Nat) (cs : List Nat) : Nat :=
  cs.foldl (fun best c2 => if cnt best < cnt c2 then c2 else best) c

theorem pickMode_mem (cnt : Nat → Nat) :
    ∀ (cs : List Nat) (c : Nat), pickMode cnt c cs ∈ c :: cs := by
  intro cs
  induction cs with
  | nil =>
    intro c
    simp [pickMode]
  | cons c2 cs' ih =>
    intro c
    have hstep : pickMode cnt c (c2 :: cs')
        = pickMode cnt (if cnt c < cnt c2 then c2 else c) cs' := rfl
    rw [hstep]
    have h := ih (if cnt c < cnt c2 then c2 else c)
    rcases List.mem_cons.mp h with heq | hmem
    · rw [heq]
      by_cases hc : cnt c < cnt c2 <;> simp [hc]
    · exact List.mem_cons_of_mem _ (List.mem_cons_of_mem _ hmem)

theorem pickMode_max (cnt : Nat → Nat) :
    ∀ (cs : List Nat) (c : Nat), ∀ x ∈ c :: cs, cnt x ≤ cnt (pickMode cnt c cs) := by
  intro cs
  induction cs with
  | nil =>
    intro c x hx
    rcases List.mem_singleton.mp hx with rfl
    simp [pickMode]
  | cons c2 cs' ih =>
    intro c x hx
    have hstep : pickMode cnt c (c2 :: cs')
        = pickMode cnt (if cnt c < cnt c2 then c2 else c) cs' := rfl
    rw [hstep]
    have hinit1 : cnt c ≤ cnt (if cnt c < cnt c2 then c2 else c) := by
      by_cases hc : cnt c < cnt c2 <;> simp [hc]
      omega
    have hinit2 : cnt c2 ≤ cnt (if cnt c < cnt c2 then c2 else c) := by
      by_cases hc : cnt c < cnt c2 <;> simp [hc]
      omega
    have hrec := ih (if cnt c < cnt c2 then c2 else c)
    rcases List.mem_cons.mp hx with rfl | hx'
    · exact le_trans hinit1 (hrec _ (List.mem_cons_self _ _))
    · rcases List.mem_cons.mp hx' with rfl | hx''
      · exact le_trans hinit2 (hrec _ (List.mem_cons_self _ _))
      · exact hrec x (List.mem_cons_of_mem _ hx'')

/-- Classification of the modal day-delta; mirrors the if-chain of
`_infer_frequency_daily_base`. -/
def classifyStep (m : Nat) : String :=
  if m = 1 then "daily"
  else if m = 7 then "weekly"
  else if 28 ≤ m ∧ m ≤ 31 then "monthly"
  else "irregular"

/-- Frequency inference; models `_infer_frequency_daily_base` in
`tools/cache_base.py` (sorted distinct normalized dates, positive
consecutive day-deltas, modal delta via first-argmax, small-sample
confidence penalty). -/
def inferFrequencyDailyBase (rows : List Row) (minPoints : Nat) : FreqInfo :=
  let d := observedDates rows
  let n := d.length
  if n < 2 then ⟨"irregular", 0, none, n⟩
  else
    let diffs := (diffList d).filter (fun x => decide (0 < x))
    if diffs.isEmpty then ⟨"irregular", 0, none, n⟩
    else
      let modeStep :=
        match dedupAdj (sortKey id diffs) with
        | [] => 0
        | c :: cs => pickMode (countOf diffs) c cs
      let modeShare : ℚ := (countOf diffs modeStep : ℚ) / (diffs.length : ℚ)
      let penalty : ℚ := if n < minPoints then 1/4 else 0
      let conf : ℚ := max 0 (min 1 (modeShare - penalty))
      if modeStep = 1 then ⟨"daily", conf, some 1, n⟩
      else if modeStep = 7 then ⟨"weekly", conf, some 7, n⟩
      else if 28 ≤ modeStep ∧ modeStep ≤ 31 then ⟨"monthly", conf, some modeStep, n⟩
      else ⟨"irregular", conf, some modeStep, n⟩

/-- C7: frequency inference works on the sorted distinct normalized dates;
with fewer than 2 distinct dates it reports `irregular` with confidence 0;
otherwise the positive-delta filter discards nothing (consecutive deltas
of a strictly sorted list are positive, so the "no positive deltas"
fallback never fires here), and the result classifies a modal delta `m`
(daily for 1, weekly for 7, monthly for 28..31, else irregular) with
confidence `clamp(mode_share - penalty, 0, 1)`, where `mode_share` is the
modal delta's share of all deltas and the penalty is `0.25` exactly when
the number of distinct dates is below the threshold. -/
theorem c7_frequency_inference (rows : List Row) (minPoints : Nat) :
    ((observedDates rows).length < 2 →
      inferFrequencyDailyBase rows minPoints
        = ⟨"irregular", 0, none, (observedDates rows).length⟩)
    ∧ (2 ≤ (observedDates rows).length →
        diffList (observedDates rows) ≠ []
        ∧ (diffList (observedDates rows)).filter (fun x => decide (0 < x))
            = diffList (observedDates rows)
        ∧ ∃ m, m ∈ diffList (observedDates rows)
            ∧ (∀ x ∈ diffList (observedDates rows),
                countOf (diffList (observedDates rows)) x
                  ≤ countOf (diffList (observedDates rows)) m)
            ∧ inferFrequencyDailyBase rows minPoints =
                ⟨classifyStep m,
                 max 0 (min 1
                   ((countOf (diffList (observedDates rows)) m : ℚ)
                      / ((diffList (observedDates rows)).length : ℚ)
                    - (if (observedDates rows).length < minPoints
                        then (1 : ℚ)/4 else 0))),
                 some m, (observedDates rows).length⟩) := by
  constructor
  · intro h
    unfold inferFrequencyDailyBase
    rw [if_pos h]
  · intro h2
    have hchain := chain'_lt_observedDates rows
    have hpos : ∀ x ∈ diffList (observedDates rows), 0 < x :=
      diffList_pos _ hchain
    have hfil : (diffList (observedDates rows)).filter (fun x => decide (0 < x))
        = diffList (observedDates rows) := by
      rw [List.filter_eq_self]
      intro a ha
      simpa using hpos a ha
    have hlen : (diffList (observedDates rows)).length
        = (observedDates rows).length - 1 := diffList_length _
    have hne : diffList (observedDates rows) ≠ [] := by
      intro hnil
      rw [hnil] at hlen
      simp at hlen
      omega
    refine ⟨hne, hfil, ?_⟩
    have hsne : sortKey id (diffList (observedDates rows)) ≠ [] :=
      sortKey_ne_nil id hne
    obtain ⟨c, t, hct⟩ :
        ∃ c t, sortKey id (diffList (observedDates rows)) = c :: t := by
      cases hs : sortKey id (diffList (observedDates rows)) with
      | nil => exact absurd hs hsne
      | cons c t => exact ⟨c, t, rfl⟩
    obtain ⟨cs, hcands⟩ := dedupAdj_cons_head t c
    refine ⟨pickMode (countOf (diffList (observedDates rows))) c cs, ?_, ?_, ?_⟩
    · have h1 := pickMode_mem (countOf (diffList (observedDates rows))) cs c
      rw [← hcands, mem_dedupAdj, ← hct, mem_sortKey] at h1
      exact h1
    · intro x hx
      have h1 : x ∈ c :: cs := by
        rw [← hcands, mem_dedupAdj, ← hct, mem_sortKey]
        exact hx
      exact pickMode_max _ cs c x h1
    · unfold inferFrequencyDailyBase
      rw [if_neg (by omega)]
      simp only [hfil]
      have hempty : (diffList (observedDates rows)).isEmpty = false := by
        rw [List.isEmpty_eq_false]
        exact hne
      simp only [hempty, Bool.false_eq_true, if_false]
      rw [hct, hcands]
      by_cases hm1 : pickMode (countOf (diffList (observedDates rows))) c cs = 1
      · simp [hm1, classifyStep]
      · by_cases hm7 : pickMode (countOf (diffList (observedDates rows))) c cs = 7
        · simp [hm1, hm7, classifyStep]
        · by_cases hmm : 28 ≤ pickMode (countOf (diffList (observedDates rows))) c cs
              ∧ pickMode (countOf (diffList (observedDates rows))) c cs ≤ 31
          · simp [hm1, hm7, hmm, classifyStep]
          · simp [hm1, hm7, hmm, classifyStep]

/-- Witness for C7 at a concrete input: a single observation gives one
distinct date, hence `irregular` with confidence 0. -/
theorem c7_witness :
    inferFrequencyDailyBase [⟨3, 0, ""⟩] 12 = ⟨"irregular", 0, none, 1⟩ :=
  (c7_frequency_inference [⟨3, 0, ""⟩] 12).1 (by decide)

/-- State of the on-disk cache file before/after a call: no file, an
existing but unreadable/corrupt file, or a readable table. -/
inductive FileContent
  | absent
  | corrupt
  | good (t : List Row)
deriving DecidableEq, Repr

/-- Models `_load_cache`: missing file → `None`; `pd.read_csv` raising →
`None` (the `except` clause); otherwise the parsed table. -/
def loadCache : FileContent → Option (List Row)
  | .absent => none
  | .corrupt => none
  | .good t => some t

/-- Models the subclass `_normalize_df` hook on model tables (dates in the
model are already valid and normalized, so parsing/`dropna`/`normalize`
are identities and only the final sort by date remains). -/
def normalizeDf (rows : List Row) : List Row := sortKey (·.date) rows

/-- Models `_slice_window`: restrict to `[start, fin]` and sort by date
(`None`/empty input gives an empty frame). -/
def sliceWindow (df : Option (List Row)) (start fin : Nat) : List Row :=
  match df with
  | none => []
  | some rows =>
    if rows.isEmpty then []
    else sortKey (·.date)
      (rows.filter (fun r => decide (start ≤ r.date) && decide (r.date ≤ fin)))

/-- Successful outcome of one `_cached_timeseries` call: the sliced
window, the `CacheFetchInfo` fields, the computed missing-segment list,
and whether `_save_cache` was invoked. -/
structure RunOk where
  window : List Row
  cacheHit : Bool
  fetchedSegments : List (Nat × Nat × Nat)
  inferredFreq : Option String
  freqConfidence : Option ℚ
  missing : List (Nat × Nat)
  saved : Bool
deriving DecidableEq, Repr

/-- The per-segment fetch loop of `_cached_timeseries`: fetch each missing
segment in order, normalize the batch, record `(start, end, rows)`, and
fold the batch into the running merged table; a fetch failure propagates
immediately. -/
def runSegs (fetchFn : Nat → Nat → Except String (List Row)) (hasSeries : Bool)
    (merged : Option (List Row)) (acc : List (Nat × Nat × Nat)) :
    List (Nat × Nat) → Except String (Option (List Row) × List (Nat × Nat × Nat))
  | [] => .ok (merged, acc)
  | (a, b) :: rest =>
    match fetchFn a b with
    | .error e => .error e
    | .ok raw =>
      let dfNew := normalizeDf raw
      runSegs fetchFn hasSeries (some (mergeCache merged dfNew hasSeries))
        (acc ++ [(a, b, dfNew.length)]) rest

/-- The loaded-and-normalized cache table (`df_cache` after line 81 of
`cache_base.py`): normalization is applied only to a non-empty loaded
table. -/
def engineNorm (file : FileContent) : Option (List Row) :=
  match loadCache file with
  | none => none
  | some t => some (if t.isEmpty then t else normalizeDf t)

/-- The FrequencyInfo the engine passes to gap detection: inferred from
the whole (normalized) cache table when it is non-empty, else `None`. -/
def engineFreq (file : FileContent) : Option FreqInfo :=
  match engineNorm file with
  | none => none
  | some t => if t.isEmpty then none else some (inferFrequencyDailyBase t 12)

/-- The missing-segment list the engine computes for a request. -/
def engineMissing (file : FileContent) (start fin : Nat) (allowDaily : Bool) :
    List (Nat × Nat) :=
  missingSegments (engineNorm file) start fin (engineFreq file) allowDaily

/-- Models `_cached_timeseries` end to end: load, normalize, infer
frequency, compute missing segments, fetch them sequentially, merge,
persist iff something was fetched or no cache table was loaded, slice the
window, and report `CacheFetchInfo`. Returns the call outcome together
with the cache-file state after the call. -/
def runEngine (file : FileContent) (start fin : Nat)
    (fetchFn : Nat → Nat → Except String (List Row))
    (allowDaily hasSeries : Bool) : Except String RunOk × FileContent :=
  let dfCache := engineNorm file
  let freq := engineFreq file
  let missing := engineMissing file start fin allowDaily
  match runSegs fetchFn hasSeries dfCache [] missing with
  | .error e => (.error e, file)
  | .ok (merged, segs) =>
    let needSave := !segs.isEmpty || dfCache.isNone
    let fileAfter := if needSave then FileContent.good (merged.getD []) else file
    (.ok { window := sliceWindow merged start fin
           cacheHit := dfCache.isSome && !(dfCache.getD []).isEmpty && missing.isEmpty
           fetchedSegments := segs
           inferredFreq := freq.map (·.freq)
           freqConfidence := freq.map (·.confidence)
           missing := missing
           saved := needSave },
     fileAfter)

/-- Boolean success test on an `Except` result. -/
def isOkE {ε α : Type} : Except ε α → Bool
  | .ok _ => true
  | .error _ => false

theorem runSegs_ok_length (F : Nat → Nat → Except String (List Row)) (hs : Bool) :
    ∀ (segs : List (Nat × Nat)) (merged : Option (List Row))
      (acc : List (Nat × Nat × Nat)) (m' : Option (List Row))
      (acc' : List (Nat × Nat × Nat)),
      runSegs F hs merged acc segs = .ok (m', acc') →
        acc'.length = acc.length + segs.length := by
  intro segs
  induction segs with
  | nil =>
    intro merged acc m' acc' h
    rw [runSegs] at h
    injection h with h'
    have h2 : acc = acc' := congrArg Prod.snd h'
    rw [← h2]
    simp
  | cons seg rest ih =>
    intro merged acc m' acc' h
    rcases seg with ⟨a, b⟩
    rw [runSegs] at h
    cases hF : F a b with
    | error e => rw [hF] at h; exact absurd h (by simp)
    | ok raw =>
      rw [hF] at h
      have := ih _ _ _ _ h
      simp only [List.length_append, List.length_cons, List.length_nil] at this ⊢
      omega

theorem runSegs_error_at (F : Nat → Nat → Except String (List Row)) (hs : Bool)
    (a b : Nat) (e : String) (post : List (Nat × Nat))
    (herr : F a b = .error e) :
    ∀ (pre : List (Nat × Nat)), (∀ s ∈ pre, isOkE (F s.1 s.2) = true) →
      ∀ (merged : Option (List Row)) (acc : List (Nat × Nat × Nat)),
        runSegs F hs merged acc (pre ++ (a, b) :: post) = .error e := by
  intro pre
  induction pre with
  | nil =>
    intro _ merged acc
    rw [List.nil_append, runSegs, herr]
  | cons s pre' ih =>
    intro hpre merged acc
    rcases s with ⟨x, y⟩
    have hok : isOkE (F x y) = true := hpre (x, y) (List.mem_cons_self _ _)
    cases hF : F x y with
    | error e' => rw [hF] at hok; exact absurd hok (by simp [isOkE])
    | ok raw =>
      rw [List.cons_append, runSegs, hF]
      exact ih (fun s hs' => hpre s (List.mem_cons_of_mem _ hs')) _ _

/-- C8: if the fetch collaborator fails on any missing segment (after
succeeding on the earlier ones), the whole request aborts with that very
error and the cache file is left exactly as it was before the call —
batches fetched for earlier segments of the same call are discarded, and
`_save_cache` (which only runs after the whole segment loop) never
executes. -/
theorem c8_fetch_error_aborts (file : FileContent) (start fin : Nat)
    (F : Nat → Nat → Except String (List Row)) (allowDaily hasSeries : Bool)
    (pre post : List (Nat × Nat)) (a b : Nat) (e : String)
    (hpre : ∀ s ∈ pre, isOkE (F s.1 s.2) = true)
    (herr : F a b = .error e)
    (hmiss : engineMissing file start fin allowDaily = pre ++ (a, b) :: post) :
    runEngine file start fin F allowDaily hasSeries = (.error e, file) := by
  have h := runSegs_error_at F hasSeries a b e post herr pre hpre
    (engineNorm file) []
  rw [← hmiss] at h
  unfold runEngine
  simp only [h]

/-- Witness for C8 at a concrete input: a collaborator that always fails
aborts the request with its error and leaves the (corrupt) cache file
untouched. -/
theorem c8_witness :
    runEngine .corrupt 0 1 (fun _ _ => .error "boom") true false
      = (.error "boom", .corrupt) :=
  c8_fetch_error_aborts .corrupt 0 1 (fun _ _ => .error "boom") true false
    [] [] 0 1 "boom" (by simp) rfl (by decide)

/-- C9: when the cache file is missing or unreadable (`_load_cache`
returns `None`), the request does not fail for that reason — the cache is
treated as empty, the gap detector returns exactly one segment covering
the whole requested window, and (the collaborator succeeding on that
window) the call completes successfully. -/
theorem c9_cache_read_fallback (file : FileContent) (start fin : Nat)
    (F : Nat → Nat → Except String (List Row)) (allowDaily hasSeries : Bool)
    (rows : List Row)
    (hload : loadCache file = none)
    (hfetch : F start fin = .ok rows) :
    engineMissing file start fin allowDaily = [(start, fin)]
    ∧ isOkE (runEngine file start fin F allowDaily hasSeries).1 = true := by
  have hnorm : engineNorm file = none := by
    unfold engineNorm
    rw [hload]
  have hmiss : engineMissing file start fin allowDaily = [(start, fin)] := by
    unfold engineMissing
    rw [hnorm]
    rfl
  refine ⟨hmiss, ?_⟩
  have hr : runSegs F hasSeries none [] [(start, fin)]
      = .ok (some (mergeCache none (normalizeDf rows) hasSeries),
             [(start, fin, (normalizeDf rows).length)]) := by
    rw [runSegs, hfetch]
    rfl
  unfold runEngine
  rw [hmiss, hnorm]
  simp only [hr]
  rfl

/-- Witness for C9 at a concrete input: a corrupt cache file degrades to a
single whole-window fetch and the call succeeds. -/
theorem c9_witness :
    engineMissing .corrupt 2 5 true = [(2, 5)]
    ∧ isOkE (runEngine .corrupt 2 5 (fun _ _ => .ok []) true false).1 = true :=
  c9_cache_read_fallback .corrupt 2 5 (fun _ _ => .ok []) true false [] rfl rfl

/-- C10: on a successful call, the cache file is (re)written exactly when
at least one segment was fetched or no cache file existed before the call;
in particular on a cache hit (non-empty loaded cache, no missing segments)
the save routine is not invoked and the on-disk cache state is unchanged
by the call. -/
theorem c10_save_exactly_when_fetched (file : FileContent) (start fin : Nat)
    (F : Nat → Nat → Except String (List Row)) (allowDaily hasSeries : Bool)
    (r : RunOk)
    (hok : (runEngine file start fin F allowDaily hasSeries).1 = .ok r) :
    (r.saved = true ↔ (r.fetchedSegments ≠ [] ∨ file = .absent))
    ∧ (r.cacheHit = true →
        r.saved = false
        ∧ (runEngine file start fin F allowDaily hasSeries).2 = file) := by
  cases hrs : runSegs F hasSeries (engineNorm file) []
      (engineMissing file start fin allowDaily) with
  | error e =>
    unfold runEngine at hok
    simp only [hrs] at hok
    exact absurd hok (by simp)
  | ok p =>
    rcases p with ⟨merged, segs⟩
    unfold runEngine at hok
    simp only [hrs] at hok
    injection hok with hok'
    have hlen := runSegs_ok_length F hasSeries _ _ _ _ _ hrs
    simp only [List.length_nil, Nat.zero_add] at hlen
    have hsegs_of_none : engineNorm file = none → segs ≠ [] := by
      intro hn
      have : engineMissing file start fin allowDaily = [(start, fin)] := by
        unfold engineMissing
        rw [hn]
        rfl
      rw [this] at hlen
      intro hnil
      rw [hnil] at hlen
      simp at hlen
    constructor
    · rw [← hok']
      simp only [Bool.or_eq_true, Bool.not_eq_true']
      cases hfile : file with
      | absent =>
        have hn : engineNorm FileContent.absent = none := rfl
        simp [hn]
      | corrupt =>
        have hne : segs ≠ [] := hsegs_of_none (by rw [hfile]; rfl)
        have hn : (engineNorm FileContent.corrupt).isNone = true := rfl
        simp [hn, hne]
      | good t =>
        have hn : engineNorm (FileContent.good t) = some (if t.isEmpty then t else normalizeDf t) := rfl
        constructor
        · intro hb
          rcases hb with hb | hb
          · left
            intro hnil
            rw [hnil] at hb
            simp at hb
          · rw [hn] at hb
            simp at hb
        · intro hb
          rcases hb with hb | hb
          · left
            rw [List.isEmpty_eq_false]
            exact hb
          · exact absurd hb (by simp)
    · intro hhit
      rw [← hok'] at hhit
      simp only [Bool.and_eq_true] at hhit
      have hmiss_nil : engineMissing file start fin allowDaily = [] := by
        have := hhit.2
        rwa [List.isEmpty_iff] at this
      rw [hmiss_nil] at hlen
      simp only [List.length_nil] at hlen
      have hsegs_nil : segs = [] := List.length_eq_zero.mp hlen
      have hnotnone : (engineNorm file).isNone = false := by
        have h1 := hhit.1.1
        cases he : engineNorm file with
        | none => rw [he] at h1; simp at h1
        | some t => rfl
      constructor
      · rw [← hok']
        simp [hsegs_nil, hnotnone]
      · unfold runEngine
        simp only [hrs]
        simp [hsegs_nil, hnotnone]

/-- Witness for C10 at a concrete input: a fully covered sub-window
request is a cache hit and leaves the cache file untouched. -/
theorem c10_witness :
    (runEngine (.good [⟨0, 0, ""⟩, ⟨1, 0, ""⟩, ⟨2, 0, ""⟩, ⟨3, 0, ""⟩]) 1 2
        (fun _ _ => .ok []) true false).2
      = .good [⟨0, 0, ""⟩, ⟨1, 0, ""⟩, ⟨2, 0, ""⟩, ⟨3, 0, ""⟩] := by
  have h := c10_save_exactly_when_fetched
    (.good [⟨0, 0, ""⟩, ⟨1, 0, ""⟩, ⟨2, 0, ""⟩, ⟨3, 0, ""⟩]) 1 2
    (fun _ _ => .ok []) true false
    { window := [⟨1, 0, ""⟩, ⟨2, 0, ""⟩]
      cacheHit := true
      fetchedSegments := []
      inferredFreq := some "daily"
      freqConfidence := some ((inferFrequencyDailyBase
        (normalizeDf [⟨0, 0, ""⟩, ⟨1, 0, ""⟩, ⟨2, 0, ""⟩, ⟨3, 0, ""⟩]) 12).confidence)
      missing := []
      saved := false } (by rfl)
  exact (h.2 rfl).2

/-- C5 counterexample: for the inverted range `start = 5 > 3 = end` the
engine raises no error at all — the call completes successfully and the
fetch collaborator is invoked once, on the inverted segment `(5, 3)`,
instead of the request being rejected before any fetch I/O. -/
theorem c5_counterexample :
    (runEngine .absent 5 3 (fun _ _ => .ok []) true false).1.toOption.map
        (fun r => (r.missing, r.fetchedSegments))
      = some ([(5, 3)], [(5, 3, 0)]) := by
  rfl

theorem missingSegments_inverted (df : Option (List Row)) (start fin : Nat)
    (freq : Option FreqInfo) (allowDaily : Bool) (h : fin < start) :
    missingSegments df start fin freq allowDaily = [(start, fin)] := by
  cases df with
  | none => rfl
  | some rows =>
    rw [missingSegments]
    by_cases he : rows.isEmpty
    · rw [if_pos he]
    · rw [if_neg he]
      have hwin : rows.filter
          (fun r => decide (start ≤ r.date) && decide (r.date ≤ fin)) = [] := by
        rw [List.filter_eq_nil_iff]
        intro r _
        simp only [Bool.and_eq_true, decide_eq_true_eq, not_and]
        omega
      simp only [hwin]
      rfl

/-- C5 amended: the engine performs no `end < start` validation and
signals no error for an inverted range; instead the gap detector returns
the single (inverted) segment `(start, end)` and, when the collaborator
answers that call, the request completes successfully. -/
theorem c5_no_range_rejection (file : FileContent) (start fin : Nat)
    (F : Nat → Nat → Except String (List Row)) (allowDaily hasSeries : Bool)
    (rows : List Row)
    (hinv : fin < start)
    (hfetch : F start fin = .ok rows) :
    engineMissing file start fin allowDaily = [(start, fin)]
    ∧ isOkE (runEngine file start fin F allowDaily hasSeries).1 = true := by
  have hmiss : engineMissing file start fin allowDaily = [(start, fin)] :=
    missingSegments_inverted _ start fin _ allowDaily hinv
  refine ⟨hmiss, ?_⟩
  have hr : runSegs F hasSeries (engineNorm file) [] [(start, fin)]
      = .ok (some (mergeCache (engineNorm file) (normalizeDf rows) hasSeries),
             [(start, fin, (normalizeDf rows).length)]) := by
    rw [runSegs, hfetch]
    rfl
  unfold runEngine
  rw [hmiss]
  simp only [hr]
  rfl

/-- Witness for the amended C5 at a concrete input: requesting `[5, 3]`
with an empty cache yields the single inverted segment and a successful
call. -/
theorem c5_witness :
    engineMissing .absent 5 3 true = [(5, 3)]
    ∧ isOkE (runEngine .absent 5 3 (fun _ _ => .ok []) true false).1 = true :=
  c5_no_range_rejection .absent 5 3 (fun _ _ => .ok []) true false []
    (by decide) rfl

/-- C4 counterexample: with cached rows at days 0,1,2,3,4 (outside the
window) and 10,17,24,31,38 (inside the window `[10, 38]`), the engine
consults a cadence inferred from the whole cache — `daily`, because the
out-of-window rows make the modal delta 1 — and daily gap-fill fetches the
internal gaps, while inference restricted to the in-window rows (deltas
all 7) yields `weekly`, under which edge-fill would have fetched nothing.
So the FrequencyInfo consulted by gap detection is not computed from only
the in-window rows. -/
theorem c4_counterexample :
    (runEngine (.good [⟨0, 0, ""⟩, ⟨1, 0, ""⟩, ⟨2, 0, ""⟩, ⟨3, 0, ""⟩, ⟨4, 0, ""⟩,
          ⟨10, 0, ""⟩, ⟨17, 0, ""⟩, ⟨24, 0, ""⟩, ⟨31, 0, ""⟩, ⟨38, 0, ""⟩])
        10 38 (fun _ _ => .ok []) true false).1.toOption.map
        (fun r => (r.inferredFreq, r.missing))
      = some (some "daily", [(11, 16), (18, 23), (25, 30), (32, 37)])
    ∧ (inferFrequencyDailyBase
        (normalizeDf ([⟨0, 0, ""⟩, ⟨1, 0, ""⟩, ⟨2, 0, ""⟩, ⟨3, 0, ""⟩, ⟨4, 0, ""⟩,
            ⟨10, 0, ""⟩, ⟨17, 0, ""⟩, ⟨24, 0, ""⟩, ⟨31, 0, ""⟩, ⟨38, 0, ""⟩].filter
          (fun r => decide (10 ≤ r.date) && decide (r.date ≤ 38)))) 12).freq
      = "weekly" := by
  constructor
  · rfl
  · rfl

theorem engine_freq_field (file : FileContent) (start fin : Nat)
    (F : Nat → Nat → Except String (List Row)) (allowDaily hasSeries : Bool)
    (hok : isOkE (runEngine file start fin F allowDaily hasSeries).1 = true) :
    (runEngine file start fin F allowDaily hasSeries).1.toOption.map
        RunOk.inferredFreq
      = some ((engineFreq file).map (·.freq)) := by
  cases hrs : runSegs F hasSeries (engineNorm file) []
      (engineMissing file start fin allowDaily) with
  | error e =>
    unfold runEngine at hok
    simp only [hrs] at hok
    exact absurd hok (by simp [isOkE])
  | ok p =>
    rcases p with ⟨merged, segs⟩
    unfold runEngine
    simp only [hrs]
    rfl

/-- C4 amended: the FrequencyInfo consulted by gap detection (and reported
in the sync info) is computed from the whole loaded cache table, so it is
the same for any two successful requests against the same cache file,
regardless of their windows; it is not restricted to the rows inside the
requested window (and it is unknown only when the whole table is missing
or empty, not when merely the in-window portion is empty). -/
theorem c4_freq_whole_cache (file : FileContent) (s1 f1 s2 f2 : Nat)
    (F1 F2 : Nat → Nat → Except String (List Row)) (a1 a2 h1 h2 : Bool)
    (hok1 : isOkE (runEngine file s1 f1 F1 a1 h1).1 = true)
    (hok2 : isOkE (runEngine file s2 f2 F2 a2 h2).1 = true) :
    (runEngine file s1 f1 F1 a1 h1).1.toOption.map RunOk.inferredFreq
      = (runEngine file s2 f2 F2 a2 h2).1.toOption.map RunOk.inferredFreq := by
  rw [engine_freq_field file s1 f1 F1 a1 h1 hok1,
    engine_freq_field file s2 f2 F2 a2 h2 hok2]

/-- Witness for the amended C4 at a concrete input: two successful
requests with disjoint windows against the same two-row cache report the
same inferred frequency. -/
theorem c4_witness :
    (runEngine (.good [⟨0, 0, ""⟩, ⟨1, 0, ""⟩]) 0 1 (fun _ _ => .ok [])
        true false).1.toOption.map RunOk.inferredFreq
      = (runEngine (.good [⟨0, 0, ""⟩, ⟨1, 0, ""⟩]) 5 9 (fun _ _ => .ok [])
        true false).1.toOption.map RunOk.inferredFreq :=
  c4_freq_whole_cache (.good [⟨0, 0, ""⟩, ⟨1, 0, ""⟩]) 0 1 5 9
    (fun _ _ => .ok []) (fun _ _ => .ok []) true true false false rfl rfl

/-- C1 counterexample: first call on an empty cache for window `[0, 9]`
against a collaborator whose data has a hole at days 4 and 5 (a daily
series with a gap) succeeds and persists the fetched table; the
immediately subsequent call with identical arguments and the identical
collaborator computes the non-empty missing-segment list `[(4, 5)]`,
invokes the fetch function once more, and reports `cache_hit = false` —
refuting the claimed unconditional idempotence / coverage invariant. -/
theorem c1_counterexample :
    (runEngine .absent 0 9
        (fun a b => .ok ([⟨0, 0, ""⟩, ⟨1, 0, ""⟩, ⟨2, 0, ""⟩, ⟨3, 0, ""⟩,
            ⟨6, 0, ""⟩, ⟨7, 0, ""⟩, ⟨8, 0, ""⟩, ⟨9, 0, ""⟩].filter
          (fun r => decide (a ≤ r.date) && decide (r.date ≤ b))))
        true false).2
      = .good [⟨0, 0, ""⟩, ⟨1, 0, ""⟩, ⟨2, 0, ""⟩, ⟨3, 0, ""⟩,
          ⟨6, 0, ""⟩, ⟨7, 0, ""⟩, ⟨8, 0, ""⟩, ⟨9, 0, ""⟩]
    ∧ (runEngine
        (.good [⟨0, 0, ""⟩, ⟨1, 0, ""⟩, ⟨2, 0, ""⟩, ⟨3, 0, ""⟩,
            ⟨6, 0, ""⟩, ⟨7, 0, ""⟩, ⟨8, 0, ""⟩, ⟨9, 0, ""⟩]) 0 9
        (fun a b => .ok ([⟨0, 0, ""⟩, ⟨1, 0, ""⟩, ⟨2, 0, ""⟩, ⟨3, 0, ""⟩,
            ⟨6, 0, ""⟩, ⟨7, 0, ""⟩, ⟨8, 0, ""⟩, ⟨9, 0, ""⟩].filter
          (fun r => decide (a ≤ r.date) && decide (r.date ≤ b))))
        true false).1.toOption.map
        (fun r => (r.missing, r.cacheHit, r.fetchedSegments))
      = some ([(4, 5)], false, [(4, 5, 0)]) := by
  constructor
  · rfl
  · rfl

theorem missingSegments_nil_of_covered (rows : List Row) (s' e' : Nat)
    (freq : Option FreqInfo) (allowDaily : Bool)
    (hle : s' ≤ e')
    (hc : ∀ d, s' ≤ d → d ≤ e' → d ∈ rows.map Row.date) :
    missingSegments (some rows) s' e' freq allowDaily = [] := by
  obtain ⟨rs, hrs_mem, hrs_date⟩ : ∃ r ∈ rows, r.date = s' := by
    rcases List.mem_map.mp (hc s' le_rfl hle) with ⟨r, hr, hrd⟩
    exact ⟨r, hr, hrd⟩
  have hrows_ne : rows.isEmpty = false := by
    rw [List.isEmpty_eq_false]
    intro h
    rw [h] at hrs_mem
    simp at hrs_mem
  rw [missingSegments]
  rw [if_neg (by simp [hrows_ne])]
  simp only []
  have hs_in : rs ∈ rows.filter
      (fun r => decide (s' ≤ r.date) && decide (r.date ≤ e')) :=
    List.mem_filter.mpr ⟨hrs_mem, by simp [hrs_date]; omega⟩
  have hinw_ne : (rows.filter
      (fun r => decide (s' ≤ r.date) && decide (r.date ≤ e'))).isEmpty = false := by
    rw [List.isEmpty_eq_false]
    intro h
    rw [h] at hs_in
    simp at hs_in
  rw [if_neg (by simp [hinw_ne])]
  have hdate_in : ∀ d, s' ≤ d → d ≤ e' →
      d ∈ (rows.filter
        (fun r => decide (s' ≤ r.date) && decide (r.date ≤ e'))).map Row.date := by
    intro d hd1 hd2
    rcases List.mem_map.mp (hc d hd1 hd2) with ⟨r, hr, hrd⟩
    refine List.mem_map.mpr ⟨r, List.mem_filter.mpr ⟨hr, ?_⟩, hrd⟩
    rw [hrd]
    simp
    omega
  by_cases hdaily : allowDaily && isDailyFreq freq
  · rw [if_pos hdaily]
    unfold missingSegmentsDaily
    have hmiss_nil : expectedMissing
        (rows.filter (fun r => decide (s' ≤ r.date) && decide (r.date ≤ e')))
        s' e' = [] := by
      unfold expectedMissing
      rw [List.filter_eq_nil_iff]
      intro d hd
      rcases mem_natRange.mp hd with ⟨hd1, hd2⟩
      have hmem : d ∈ observedDates
          (rows.filter (fun r => decide (s' ≤ r.date) && decide (r.date ≤ e'))) :=
        (mem_observedDates _ d).mpr (hdate_in d hd1 hd2)
      simp
      exact hmem
    rw [hmiss_nil]
    rfl
  · rw [if_neg hdaily]
    cases hmap : (rows.filter
        (fun r => decide (s' ≤ r.date) && decide (r.date ≤ e'))).map (·.date) with
    | nil => rfl
    | cons d ds =>
      have hs'_mem : s' ∈ d :: ds := hmap ▸ hdate_in s' le_rfl hle
      have he'_mem : e' ∈ d :: ds := hmap ▸ hdate_in e' hle le_rfl
      have h1 : ¬ s' < listMin d ds := by
        have := listMin_le d ds s' hs'_mem
        omega
      have h2 : ¬ listMax d ds < e' := by
        have := le_listMax d ds e' he'_mem
        omega
      show (if s' < listMin d ds then [(s', listMin d ds)] else [])
          ++ (if listMax d ds < e' then [(listMax d ds, e')] else []) = []
      rw [if_neg h1, if_neg h2]
      rfl

/-- C1 amended: the idempotence / coverage invariant holds once the
persisted table fully covers the original window: if the cache table
contains an observation for every calendar day of `[start, fin]`, then any
subsequent call over a sub-window `[s', e']` (same cache file, any
collaborator, either gap-fill policy) computes an empty missing-segment
list, invokes the fetch function zero times, reports `cache_hit = true`,
and leaves the cache file unchanged. The unconditional form fails exactly
when the fetched data left holes in the window (see the counterexample). -/
theorem c1_fetch_window_idempotent_on_full_coverage
    (t : List Row) (start fin s' e' : Nat)
    (F : Nat → Nat → Except String (List Row)) (allowDaily hasSeries : Bool)
    (hcov : ∀ d ∈ natRange start fin, d ∈ t.map Row.date)
    (h1 : start ≤ s') (h2 : s' ≤ e') (h3 : e' ≤ fin) :
    engineMissing (.good t) s' e' allowDaily = []
    ∧ (runEngine (.good t) s' e' F allowDaily hasSeries).1.toOption.map
        (fun r => (r.missing, r.fetchedSegments, r.cacheHit, r.saved))
      = some ([], [], true, false)
    ∧ (runEngine (.good t) s' e' F allowDaily hasSeries).2 = .good t := by
  have hcov' : ∀ d, s' ≤ d → d ≤ e' → d ∈ t.map Row.date := by
    intro d hd1 hd2
    exact hcov d (mem_natRange.mpr ⟨by omega, by omega⟩)
  have htne : t ≠ [] := by
    intro hnil
    have := hcov' s' le_rfl h2
    rw [hnil] at this
    simp at this
  have htne' : t.isEmpty = false := by
    rw [List.isEmpty_eq_false]
    exact htne
  have hnt : engineNorm (.good t) = some (normalizeDf t) := by
    show some (if t.isEmpty then t else normalizeDf t) = some (normalizeDf t)
    rw [htne']
    rfl
  have hnorm_ne : normalizeDf t ≠ [] := sortKey_ne_nil _ htne
  have hnorm_ne' : (normalizeDf t).isEmpty = false := by
    rw [List.isEmpty_eq_false]
    exact hnorm_ne
  have hcov_norm : ∀ d, s' ≤ d → d ≤ e' → d ∈ (normalizeDf t).map Row.date := by
    intro d hd1 hd2
    rcases List.mem_map.mp (hcov' d hd1 hd2) with ⟨r, hr, hrd⟩
    exact List.mem_map.mpr ⟨r, (mem_sortKey _ r t).mpr hr, hrd⟩
  have hmiss : engineMissing (.good t) s' e' allowDaily = [] := by
    unfold engineMissing
    rw [hnt]
    exact missingSegments_nil_of_covered (normalizeDf t) s' e' _ allowDaily h2 hcov_norm
  refine ⟨hmiss, ?_, ?_⟩
  · unfold runEngine
    rw [hmiss, hnt]
    have hrs : runSegs F hasSeries (some (normalizeDf t)) [] []
        = .ok (some (normalizeDf t), []) := rfl
    simp only [hrs]
    simp [Except.toOption, hnorm_ne']
  · unfold runEngine
    rw [hmiss, hnt]
    have hrs : runSegs F hasSeries (some (normalizeDf t)) [] []
        = .ok (some (normalizeDf t), []) := rfl
    simp only [hrs]
    simp

/-- Witness for the amended C1 at a concrete input: a cache covering every
day of `[0, 3]` makes the request for the sub-window `[1, 2]` a cache hit
with zero fetches and no write. -/
theorem c1_witness :
    engineMissing (.good [⟨0, 0, ""⟩, ⟨1, 0, ""⟩, ⟨2, 0, ""⟩, ⟨3, 0, ""⟩]) 1 2 true = []
    ∧ (runEngine (.good [⟨0, 0, ""⟩, ⟨1, 0, ""⟩, ⟨2, 0, ""⟩, ⟨3, 0, ""⟩]) 1 2
        (fun _ _ => .ok []) true false).1.toOption.map
        (fun r => (r.missing, r.fetchedSegments, r.cacheHit, r.saved))
      = some ([], [], true, false)
    ∧ (runEngine (.good [⟨0, 0, ""⟩, ⟨1, 0, ""⟩, ⟨2, 0, ""⟩, ⟨3, 0, ""⟩]) 1 2
        (fun _ _ => .ok []) true false).2
      = .good [⟨0, 0, ""⟩, ⟨1, 0, ""⟩, ⟨2, 0, ""⟩, ⟨3, 0, ""⟩] :=
  c1_fetch_window_idempotent_on_full_coverage
    [⟨0, 0, ""⟩, ⟨1, 0, ""⟩, ⟨2, 0, ""⟩, ⟨3, 0, ""⟩] 0 3 1 2
    (fun _ _ => .ok []) true false (by decide) (by decide) (by decide) (by decide)
